import Mathlib

/-!
# StrUtil (uStrUtil.h): a shallow embedding

Bytes are natural numbers below 256 and a `std::string` is the list of its
bytes.  A store into an `unsigned char` is written with an explicit `% 256`.
The C and C++ library calls the header relies on (`std::toupper`,
`std::tolower`, the stream inserters and extractors) are modelled in the
default "C" locale, which is the locale a stream has when nothing imbues
another one.
-/

namespace StrUtil

/-! ## Character level case mapping -/

/-- The C library `toupper` in the "C" locale: the letters a..z go to A..Z,
every other value is returned as it is. -/
def toupper (c : Nat) : Nat :=
  if 97 ≤ c ∧ c ≤ 122 then c - 32 else c

/-- The C library `tolower` in the "C" locale: the letters A..Z go to a..z,
every other value is returned as it is. -/
def tolower (c : Nat) : Nat :=
  if 65 ≤ c ∧ c ≤ 90 then c + 32 else c

/-- The guard `c && 128` of the source: a logical conjunction of the two
operands read as truth values, so it holds exactly when both are non-zero. -/
def logicalAnd (a b : Nat) : Bool :=
  (a != 0) && (b != 0)

/-- Source function `CharToUpper` (uStrUtil.h, 134-149). -/
def CharToUpper (ch : Nat) : Nat :=
  let c := ch
  if logicalAnd c 128 then
    if c ≥ 224 then
      (c - 32) % 256
    else
      (toupper c) % 256
  else
    (toupper c) % 256

/-- Source function `CharToLower` (uStrUtil.h, 158-173). -/
def CharToLower (ch : Nat) : Nat :=
  let c := ch
  if logicalAnd c 128 then
    if c ≥ 192 ∧ c ≤ 223 then
      (c + 32) % 256
    else
      (tolower c) % 256
  else
    (tolower c) % 256

/-- Source function `UpperCharTransform::operator()` (uStrUtil.h, 181-187). -/
def UpperCharTransform (ch : Nat) : Nat :=
  CharToUpper ch

/-- Source function `LowerCharTransform::operator()` (uStrUtil.h, 194-200). -/
def LowerCharTransform (ch : Nat) : Nat :=
  CharToLower ch

/-! ## String level case mapping -/

/-- The algorithm `std::transform(first, last, out, op)` with `out = first`: every element
is replaced, in order, by `op` applied to it.  The element of a `std::string`
is a `char`; passing it as `const unsigned char &` and storing the
`unsigned char` result back both keep the byte, reduced modulo 256. -/
def transform (op : Nat → Nat) : List Nat → List Nat
  | [] => []
  | b :: rest => (op (b % 256)) % 256 :: transform op rest

/-- Source function `ToUpperCase` (uStrUtil.h, 210-217). -/
def ToUpperCase (str : List Nat) : List Nat :=
  let s := str
  transform UpperCharTransform s

/-- Source function `ToLowerCase` (uStrUtil.h, 226-233). -/
def ToLowerCase (str : List Nat) : List Nat :=
  let s := str
  transform LowerCharTransform s

/-! ## Output streams -/

/-- The part of a `std::ostringstream` the header uses: the format flags
`fixed`, `uppercase` and `hex`, the precision, and the characters written so
far. -/
structure OStream where
  fixed : Bool
  uppercase : Bool
  hex : Bool
  precision : Nat
  str : List Nat

/-- A freshly constructed `ostringstream`: none of the three flags is set, the
precision is 6 and the buffer is empty. -/
def OStream.init : OStream :=
  ⟨false, false, false, 6, []⟩

/-- The call `out.flags( ios_base::fixed )`: it replaces all the format flags,
leaving `fixed` as the only one set. -/
def OStream.flagsFixed (out : OStream) : OStream :=
  ⟨true, false, false, out.precision, out.str⟩

/-- The call `out.precision( p )`. -/
def OStream.setPrecision (out : OStream) (p : Nat) : OStream :=
  ⟨out.fixed, out.uppercase, out.hex, p, out.str⟩

/-- The manipulator `std::uppercase`. -/
def OStream.setUppercase (out : OStream) : OStream :=
  ⟨out.fixed, true, out.hex, out.precision, out.str⟩

/-- The manipulator `std::hex`. -/
def OStream.setHex (out : OStream) : OStream :=
  ⟨out.fixed, out.uppercase, true, out.precision, out.str⟩

/-- The inserter of a string: its characters are appended. -/
def OStream.write (out : OStream) (s : List Nat) : OStream :=
  ⟨out.fixed, out.uppercase, out.hex, out.precision, out.str ++ s⟩

/-- The smallest value of the 32 bit `int`. -/
def INT_MIN : Int := -2147483648

/-- The largest value of the 32 bit `int`. -/
def INT_MAX : Int := 2147483647

/-- The smallest value of the 64 bit `long`. -/
def LONG_MIN : Int := -9223372036854775808

/-- The largest value of the 64 bit `long`. -/
def LONG_MAX : Int := 9223372036854775807

/-- The constant `numeric_limits< int >::digits10`. -/
def digits10_int : Nat := 9

/-- The character of one digit `d < 16`: 0..9, then A..F or a..f. -/
def digitChar (upper : Bool) (d : Nat) : Nat :=
  if d < 10 then 48 + d else if upper then 55 + d else 87 + d

/-- The digit loop of the integer inserter, `do { *--p = digit( v % b ); v /= b; }
while ( v != 0 )`: the digits are produced from the least significant one and
put in front of what is there.  The first argument bounds the number of turns. -/
def putDigits (b : Nat) (upper : Bool) : Nat → Nat → List Nat → List Nat
  | 0, _, acc => acc
  | fuel + 1, v, acc =>
    let acc := digitChar upper (v % b) :: acc
    if v / b = 0 then acc else putDigits b upper fuel (v / b) acc

/-- The digits of `v` in base `b`, most significant first, with no padding
(the conversions `%d`, `%x`, `%X` on a non-negative value).  The loop is given
`v + 1` turns, more than it ever takes. -/
def natField (b : Nat) (upper : Bool) (v : Nat) : List Nat :=
  putDigits b upper (v + 1) v []

/-- The characters the inserter of an `int` produces.  With `hex` set the value
is converted to `unsigned int` first and written in base 16; otherwise it is
written in base 10 with a minus sign when negative.  Neither the precision nor
`fixed` takes part. -/
def intField (out : OStream) (v : Int) : List Nat :=
  if out.hex then
    natField 16 out.uppercase (v % 4294967296).toNat
  else if v < 0 then
    45 :: natField 10 out.uppercase v.natAbs
  else
    natField 10 out.uppercase v.toNat

/-- The inserter `out << v` for an `int`. -/
def OStream.putInt (out : OStream) (v : Int) : OStream :=
  out.write (intField out v)

/-! ## ToString and FromString at `T = int` -/

/-- Source function `ToString< int >` (uStrUtil.h, 77-95). -/
def ToString (arg : Int) (precision : Nat) : List Nat :=
  let out := OStream.init
  let out := out.flagsFixed
  let out := if precision > 0 then out.setPrecision precision
             else out.setPrecision digits10_int
  let out := out.putInt arg
  out.str

/-- The default of the parameter `precision` of `ToString`. -/
def defaultPrecision : Nat := 0

/-- The call `arg.c_str()` read as a C string: the bytes before the first NUL. -/
def c_str (arg : List Nat) : List Nat :=
  arg.takeWhile (fun b => b != 0)

/-- The C library `isspace` in the "C" locale. -/
def isspace (c : Nat) : Bool :=
  c == 32 || (9 ≤ c && c ≤ 13)

/-- The C library `isdigit`. -/
def isdigit (c : Nat) : Bool :=
  48 ≤ c && c ≤ 57

/-- The value of a run of decimal digit characters. -/
def digitsValue (ds : List Nat) : Nat :=
  ds.foldl (fun acc c => 10 * acc + (c - 48)) 0

/-- The `num_get` conversion to `long` in base 10 on input that starts at a
non-blank character: an optional sign and the decimal digits after it are
taken; with no digit the conversion fails and zero is stored (the rule since
C++11), a value out of range is stored as the nearest bound. -/
def num_get_long (s : List Nat) : Int :=
  let neg := s.head? == some 45
  let body := if s.head? == some 45 || s.head? == some 43 then s.tail else s
  let ds := body.takeWhile isdigit
  if ds.isEmpty then 0
  else
    let v : Int := if neg then -(digitsValue ds : Int) else (digitsValue ds : Int)
    if v < LONG_MIN then LONG_MIN else if LONG_MAX < v then LONG_MAX else v

/-- The extractor `iss >> x` for an `int`, as the value `x` holds afterwards.
Leading blanks are skipped first; when that reaches the end of the input the
extraction is not attempted and `x` keeps its value.  Otherwise the `long`
that `num_get` delivers is stored, narrowed to the range of `int`. -/
def extractInt (iss : List Nat) (x : Int) : Int :=
  match iss.dropWhile isspace with
  | [] => x
  | c :: rest =>
    let lval := num_get_long (c :: rest)
    if lval < INT_MIN then INT_MIN
    else if INT_MAX < lval then INT_MAX
    else lval

/-- Source function `FromString< int >` (uStrUtil.h, 115-124).  The local `T x;` is not
initialised; `x0` is the value it happens to hold before the extraction. -/
def FromString (x0 : Int) (arg : List Nat) : Int :=
  let iss := c_str arg
  let x := x0
  let x := extractInt iss x
  x

/-! ## ToHexString -/

/-- The conversion `(int) str[ i ]` of a `char` holding the byte `b`: where
`char` is signed the bytes from 128 on are negative. -/
def charToInt (charSigned : Bool) (b : Nat) : Int :=
  if charSigned && decide (128 ≤ b % 256) then ((b % 256 : Nat) : Int) - 256
  else ((b % 256 : Nat) : Int)

/-- One turn of the loop of `ToHexString`. -/
def ToHexString.body (charSigned : Bool) (separator : List Nat) (oss : OStream) (ch : Nat) :
    OStream :=
  let oss := ((oss.setUppercase).setHex).putInt (charToInt charSigned ch)
  oss.write separator

/-- Source function `ToHexString` (uStrUtil.h, 244-257).  Whether `char` is signed is left to
the platform and is the parameter `charSigned`. -/
def ToHexString (charSigned : Bool) (str : List Nat) (separator : List Nat) : List Nat :=
  let oss := OStream.init
  let oss := str.foldl (ToHexString.body charSigned separator) oss
  oss.str

/-- The default of the parameter `separator` of `ToHexString`. -/
def defaultSeparator : List Nat := []

/-- The encoding the specification describes: every byte as exactly two
upper case hexadecimal digits, each followed by the separator. -/
def ToHexString_asSpecified (str : List Nat) (separator : List Nat) : List Nat :=
  match str with
  | [] => []
  | b :: rest =>
    [digitChar true (b / 16), digitChar true (b % 16)] ++ separator ++ ToHexString_asSpecified rest separator


/-- The characters `ToHexString` writes for the byte `b`, before the
separator. -/
def hexField (charSigned : Bool) (b : Nat) : List Nat :=
  natField 16 true (charToInt charSigned b % 4294967296).toNat

/-- The characters `ToHexString` writes for a whole string: the field of each
byte followed by the separator, in order. -/
def hexFields (charSigned : Bool) (separator : List Nat) : List Nat → List Nat
  | [] => []
  | b :: rest => hexField charSigned b ++ separator ++ hexFields charSigned separator rest

/-! ## The case mapping with a bitwise guard -/

/-- The guard `( c & 128 ) != 0`, the bitwise test of the high bit that the
specification proposes in place of `c && 128`. -/
def highBitSet (c : Nat) : Bool :=
  (c &&& 128) != 0

/-- The variant of `CharToUpper` in which the guard `c && 128` is replaced by
the bitwise test of the high bit; the rest is the source function. -/
def CharToUpper_bitwise (ch : Nat) : Nat :=
  let c := ch
  if highBitSet c then
    if c ≥ 224 then
      (c - 32) % 256
    else
      (toupper c) % 256
  else
    (toupper c) % 256

/-- The variant of `CharToLower` in which the guard `c && 128` is replaced by
the bitwise test of the high bit; the rest is the source function. -/
def CharToLower_bitwise (ch : Nat) : Nat :=
  let c := ch
  if highBitSet c then
    if c ≥ 192 ∧ c ≤ 223 then
      (c + 32) % 256
    else
      (tolower c) % 256
  else
    (tolower c) % 256

/-! ## ToString at a floating type -/

theorem CharToUpper_eq (c : Nat) (h : c < 256) :
    CharToUpper c = if 224 ≤ c then c - 32 else if 97 ≤ c ∧ c ≤ 122 then c - 32 else c := by
  by_cases h1 : 224 ≤ c
  · have h0 : c ≠ 0 := by omega
    simp [CharToUpper, logicalAnd, h0, h1]
    omega
  · by_cases h2 : 97 ≤ c ∧ c ≤ 122
    · have h0 : c ≠ 0 := by omega
      simp [CharToUpper, logicalAnd, toupper, h0, h1, h2]
      omega
    · by_cases h0 : c = 0
      · subst h0; decide
      · simp only [CharToUpper, logicalAnd, toupper, h1, h2]
        simp [h0]
        omega

theorem CharToLower_eq (c : Nat) (h : c < 256) :
    CharToLower c = if 192 ≤ c ∧ c ≤ 223 then c + 32 else if 65 ≤ c ∧ c ≤ 90 then c + 32 else c := by
  by_cases h1 : 192 ≤ c ∧ c ≤ 223
  · have h0 : c ≠ 0 := by omega
    simp [CharToLower, logicalAnd, h0, h1]
    omega
  · by_cases h2 : 65 ≤ c ∧ c ≤ 90
    · have h0 : c ≠ 0 := by omega
      simp only [CharToLower, logicalAnd, tolower, h1, h2]
      simp [h0]
      omega
    · by_cases h0 : c = 0
      · subst h0; decide
      · simp only [CharToLower, logicalAnd, tolower, h1, h2]
        simp [h0]
        omega

theorem CharToUpper_lt (c : Nat) : CharToUpper c < 256 := by
  simp only [CharToUpper]
  split_ifs <;> exact Nat.mod_lt _ (by decide)

theorem CharToLower_lt (c : Nat) : CharToLower c < 256 := by
  simp only [CharToLower]
  split_ifs <;> exact Nat.mod_lt _ (by decide)

theorem transform_eq_map (op : Nat → Nat) (s : List Nat) :
    transform op s = s.map (fun b => op (b % 256) % 256) := by
  induction s with
  | nil => rfl
  | cons b rest ih => simp [transform, ih]

theorem ToUpperCase_eq_map (s : List Nat) (hs : ∀ b ∈ s, b < 256) :
    ToUpperCase s = s.map CharToUpper := by
  simp only [ToUpperCase, transform_eq_map, UpperCharTransform]
  apply List.map_congr_left
  intro b hb
  rw [Nat.mod_eq_of_lt (hs b hb), Nat.mod_eq_of_lt (CharToUpper_lt b)]

theorem ToLowerCase_eq_map (s : List Nat) (hs : ∀ b ∈ s, b < 256) :
    ToLowerCase s = s.map CharToLower := by
  simp only [ToLowerCase, transform_eq_map, LowerCharTransform]
  apply List.map_congr_left
  intro b hb
  rw [Nat.mod_eq_of_lt (hs b hb), Nat.mod_eq_of_lt (CharToLower_lt b)]


theorem putDigits_eq (b : Nat) (hb : 2 ≤ b) (u : Bool) :
    ∀ (fuel v : Nat) (acc : List Nat), v < fuel →
      putDigits b u fuel v acc
        = (if v = 0 then [48] else ((Nat.digits b v).reverse).map (digitChar u)) ++ acc := by
  intro fuel
  induction fuel with
  | zero => intro v acc h; omega
  | succ fuel ih =>
    intro v acc h
    by_cases hq : v / b = 0
    · have hlt : v < b := (Nat.div_eq_zero_iff (by omega)).mp hq
      simp only [putDigits, hq, if_true, Nat.mod_eq_of_lt hlt]
      by_cases hv : v = 0
      · subst hv; simp [digitChar]
      · simp [hv, Nat.digits_of_lt b v hv hlt]
    · have hvpos : 0 < v := by
        rcases Nat.eq_zero_or_pos v with h0 | h0
        · subst h0; simp at hq
        · exact h0
      have hlt : v / b < fuel := by
        have : v / b < v := Nat.div_lt_self hvpos (by omega)
        omega
      simp only [putDigits, hq, if_false]
      rw [ih (v / b) _ hlt]
      have hv : v ≠ 0 := by omega
      simp only [hq, hv, if_false]
      rw [Nat.digits_def' (by omega) hvpos]
      simp

theorem natField_eq (b : Nat) (hb : 2 ≤ b) (u : Bool) (v : Nat) :
    natField b u v
      = if v = 0 then [48] else ((Nat.digits b v).reverse).map (digitChar u) := by
  simp [natField, putDigits_eq b hb u (v + 1) v [] (Nat.lt_succ_self v)]

theorem natField_ne_nil (b : Nat) (hb : 2 ≤ b) (u : Bool) (v : Nat) : natField b u v ≠ [] := by
  rw [natField_eq b hb]
  by_cases hv : v = 0
  · simp [hv]
  · simp [hv, Nat.digits_ne_nil_iff_ne_zero]

theorem natField_isdigit (u : Bool) (v : Nat) : ∀ c ∈ natField 10 u v, isdigit c = true := by
  intro c hc
  rw [natField_eq 10 (by decide)] at hc
  by_cases hv : v = 0
  · simp [hv] at hc; subst hc; decide
  · simp only [hv, if_false, List.mem_map, List.mem_reverse] at hc
    obtain ⟨d, hd, rfl⟩ := hc
    have hlt : d < 10 := Nat.digits_lt_base (by decide) hd
    simp [digitChar, hlt, isdigit]
    omega

theorem digitsValue_map_reverse (u : Bool) (ds : List Nat) (h : ∀ d ∈ ds, d < 10) :
    digitsValue ((ds.reverse).map (digitChar u)) = Nat.ofDigits 10 ds := by
  induction ds with
  | nil => simp [digitsValue]
  | cons d ds ih =>
    have hd : d < 10 := h d (by simp)
    have ih2 := ih (fun x hx => h x (by simp [hx]))
    simp only [digitsValue] at ih2 ⊢
    simp only [List.reverse_cons, List.map_append, List.foldl_append, ih2, List.map_cons,
      List.map_nil, List.foldl_cons, List.foldl_nil, Nat.ofDigits_cons]
    simp [digitChar, hd]
    omega

theorem digitsValue_natField (u : Bool) (v : Nat) : digitsValue (natField 10 u v) = v := by
  rw [natField_eq 10 (by decide)]
  by_cases hv : v = 0
  · subst hv; simp [digitsValue]
  · simp only [hv, if_false]
    rw [digitsValue_map_reverse u _ (fun d hd => Nat.digits_lt_base (by decide) hd)]
    exact Nat.ofDigits_digits 10 v


theorem ToString_eq (n : Int) (p : Nat) :
    ToString n p
      = if n < 0 then 45 :: natField 10 false n.natAbs else natField 10 false n.toNat := by
  by_cases hp : p > 0 <;>
    simp [ToString, OStream.init, OStream.flagsFixed, OStream.setPrecision, OStream.putInt,
      OStream.write, intField, hp]

theorem takeWhile_isdigit_append (D t : List Nat) (hD : ∀ c ∈ D, isdigit c = true)
    (ht : ∀ c, t.head? = some c → isdigit c = false) :
    (D ++ t).takeWhile isdigit = D := by
  rw [List.takeWhile_append_of_pos hD]
  cases t with
  | nil => simp
  | cons c t =>
    have hc : isdigit c = false := ht c rfl
    simp [List.takeWhile_cons, hc]

theorem head_takeWhile_ne_zero (t : List Nat) (ht : ∀ c, t.head? = some c → isdigit c = false) :
    ∀ c, (t.takeWhile (fun b => b != 0)).head? = some c → isdigit c = false := by
  intro c hc
  cases t with
  | nil => simp at hc
  | cons a t =>
    by_cases ha : a = 0
    · subst ha; simp at hc
    · simp [List.takeWhile_cons, ha] at hc
      subst hc
      exact ht a rfl

theorem num_get_long_digits (D t : List Nat) (hne : D ≠ []) (hD : ∀ c ∈ D, isdigit c = true)
    (ht : ∀ c, t.head? = some c → isdigit c = false)
    (hlo : LONG_MIN ≤ (digitsValue D : Int)) (hhi : (digitsValue D : Int) ≤ LONG_MAX) :
    num_get_long (D ++ t) = (digitsValue D : Int) := by
  obtain ⟨d, D', rfl⟩ := List.exists_cons_of_ne_nil hne
  have hd : isdigit d = true := hD d (by simp)
  have h45 : d ≠ 45 := by rintro rfl; simp [isdigit] at hd
  have h43 : d ≠ 43 := by rintro rfl; simp [isdigit] at hd
  have htw := takeWhile_isdigit_append (d :: D') t hD ht
  simp only [List.cons_append] at htw
  have hn : (some d == some 45) = false := by simp [h45]
  have hp : (some d == some 43) = false := by simp [h43]
  simp only [LONG_MIN, LONG_MAX] at hlo hhi ⊢
  simp only [num_get_long, List.cons_append, List.head?_cons, hn, hp, Bool.or_false,
    Bool.false_eq_true, if_false, htw, List.isEmpty_cons, LONG_MIN, LONG_MAX]
  rw [if_neg (by omega), if_neg (by omega)]

theorem num_get_long_minus (D t : List Nat) (hne : D ≠ []) (hD : ∀ c ∈ D, isdigit c = true)
    (ht : ∀ c, t.head? = some c → isdigit c = false)
    (hlo : LONG_MIN ≤ -(digitsValue D : Int)) (hhi : -(digitsValue D : Int) ≤ LONG_MAX) :
    num_get_long (45 :: D ++ t) = -(digitsValue D : Int) := by
  have htw := takeWhile_isdigit_append D t hD ht
  have hn : ((some 45 : Option Nat) == some 45) = true := by decide
  have hemp : D.isEmpty = false := by cases D <;> simp_all
  simp only [LONG_MIN, LONG_MAX] at hlo hhi ⊢
  simp only [num_get_long, List.cons_append, List.head?_cons, List.tail_cons, hn, Bool.true_or,
    if_true, htw, hemp, Bool.false_eq_true, if_false, LONG_MIN, LONG_MAX]
  rw [if_neg (by omega), if_neg (by omega)]


theorem isdigit_not_space (c : Nat) (h : isdigit c = true) : isspace c = false := by
  simp [isdigit] at h
  simp [isspace]
  omega

theorem isdigit_ne_zero (c : Nat) (h : isdigit c = true) : (c != 0) = true := by
  simp [isdigit] at h
  simp
  omega

theorem extractInt_digits (D t : List Nat) (x : Int) (hne : D ≠ [])
    (hD : ∀ c ∈ D, isdigit c = true) (ht : ∀ c, t.head? = some c → isdigit c = false)
    (hhi : (digitsValue D : Int) ≤ INT_MAX) :
    extractInt (D ++ t) x = (digitsValue D : Int) := by
  have hv := num_get_long_digits D t hne hD ht
    (by simp only [LONG_MIN]; omega) (by simp only [INT_MAX] at hhi; simp only [LONG_MAX]; omega)
  obtain ⟨d, D', rfl⟩ := List.exists_cons_of_ne_nil hne
  have hd : ¬ (isspace d = true) := by
    rw [isdigit_not_space d (hD d (by simp))]; simp
  simp only [INT_MAX] at hhi
  simp only [extractInt, List.cons_append, List.dropWhile_cons_of_neg hd]
  simp only [List.cons_append] at hv
  rw [hv]
  simp only [INT_MIN, INT_MAX]
  rw [if_neg (by omega), if_neg (by omega)]

theorem extractInt_minus (D t : List Nat) (x : Int) (hne : D ≠ [])
    (hD : ∀ c ∈ D, isdigit c = true) (ht : ∀ c, t.head? = some c → isdigit c = false)
    (hlo : INT_MIN ≤ -(digitsValue D : Int)) :
    extractInt (45 :: D ++ t) x = -(digitsValue D : Int) := by
  simp only [INT_MIN] at hlo
  have hv := num_get_long_minus D t hne hD ht
    (by simp only [LONG_MIN]; omega) (by simp only [LONG_MAX]; omega)
  have hd : ¬ (isspace 45 = true) := by decide
  simp only [extractInt, List.cons_append, List.dropWhile_cons_of_neg hd]
  simp only [List.cons_append] at hv
  rw [hv]
  simp only [INT_MIN, INT_MAX]
  rw [if_neg (by omega), if_neg (by omega)]

theorem roundtrip_append_aux (x0 n : Int) (p : Nat) (t : List Nat)
    (hlo : INT_MIN ≤ n) (hhi : n ≤ INT_MAX)
    (ht : ∀ c, t.head? = some c → isdigit c = false) :
    FromString x0 (ToString n p ++ t) = n := by
  have ht2 := head_takeWhile_ne_zero t ht
  rw [ToString_eq]
  by_cases hn : n < 0
  · simp only [hn, if_true]
    have hD := natField_isdigit false n.natAbs
    have hne := natField_ne_nil 10 (by decide) false n.natAbs
    have hval := digitsValue_natField false n.natAbs
    have hnz : ∀ a ∈ 45 :: natField 10 false n.natAbs, (a != 0) = true := by
      intro a ha
      rcases List.mem_cons.mp ha with rfl | ha
      · decide
      · exact isdigit_ne_zero a (hD a ha)
    simp only [FromString, c_str]
    rw [List.takeWhile_append_of_pos hnz]
    rw [extractInt_minus _ _ x0 hne hD ht2 (by rw [hval]; omega), hval]
    omega
  · simp only [hn, if_false]
    have hD := natField_isdigit false n.toNat
    have hne := natField_ne_nil 10 (by decide) false n.toNat
    have hval := digitsValue_natField false n.toNat
    have hnz : ∀ a ∈ natField 10 false n.toNat, (a != 0) = true :=
      fun a ha => isdigit_ne_zero a (hD a ha)
    simp only [FromString, c_str]
    rw [List.takeWhile_append_of_pos hnz]
    rw [extractInt_digits _ _ x0 hne hD ht2 (by rw [hval]; omega), hval]
    omega

theorem ToHexString_body_eq (cs : Bool) (sep : List Nat) (oss : OStream) (ch : Nat) :
    ToHexString.body cs sep oss ch
      = ⟨oss.fixed, true, true, oss.precision, oss.str ++ hexField cs ch ++ sep⟩ := by
  simp [ToHexString.body, OStream.setUppercase, OStream.setHex, OStream.putInt, OStream.write,
    intField, hexField]

theorem foldl_body_str (cs : Bool) (sep : List Nat) :
    ∀ (s : List Nat) (oss : OStream),
      (s.foldl (ToHexString.body cs sep) oss).str = oss.str ++ hexFields cs sep s := by
  intro s
  induction s with
  | nil => intro oss; simp [hexFields]
  | cons b rest ih =>
    intro oss
    simp only [List.foldl_cons, ih, ToHexString_body_eq, hexFields, List.append_assoc]

theorem ToHexString_eq (cs : Bool) (s sep : List Nat) :
    ToHexString cs s sep = hexFields cs sep s := by
  simp [ToHexString, foldl_body_str, OStream.init]

theorem hexFields_append (cs : Bool) (sep a b : List Nat) :
    hexFields cs sep (a ++ b) = hexFields cs sep a ++ hexFields cs sep b := by
  induction a with
  | nil => simp [hexFields]
  | cons x a ih => simp [hexFields, ih]

theorem hexField_two_digits (cs : Bool) (b : Nat) (hlo : 16 ≤ b) (hhi : b < 256)
    (hs : cs = true → b < 128) :
    hexField cs b = [digitChar true (b / 16), digitChar true (b % 16)] := by
  have hci : charToInt cs b = (b : Int) := by
    unfold charToInt
    rw [Nat.mod_eq_of_lt hhi]
    cases cs with
    | false => simp
    | true =>
      have := hs rfl
      have h128 : ¬ (128 ≤ b) := by omega
      simp [h128]
  have hv : ((b : Int) % 4294967296).toNat = b := by omega
  rw [hexField, hci, hv, natField_eq 16 (by decide)]
  have hb0 : b ≠ 0 := by omega
  have hq0 : b / 16 ≠ 0 := by omega
  have hq : b / 16 < 16 := by omega
  rw [if_neg hb0, Nat.digits_def' (by decide) (by omega), Nat.digits_of_lt 16 (b / 16) hq0 hq]
  simp

theorem hexFields_length (cs : Bool) (sep s : List Nat)
    (hb : ∀ b ∈ s, 16 ≤ b ∧ b < 256 ∧ (cs = true → b < 128)) :
    (hexFields cs sep s).length = 2 * s.length + s.length * sep.length := by
  induction s with
  | nil => simp [hexFields]
  | cons b rest ih =>
    have h1 := hb b (by simp)
    have h2 := ih (fun x hx => hb x (by simp [hx]))
    rw [hexFields, hexField_two_digits cs b h1.1 h1.2.1 h1.2.2]
    simp only [List.length_append, List.length_cons, List.length_nil, h2]
    ring

theorem hexFields_suffix (cs : Bool) (sep s : List Nat) (hs : s ≠ []) :
    sep <:+ hexFields cs sep s := by
  induction s with
  | nil => exact absurd rfl hs
  | cons b rest ih =>
    by_cases hr : rest = []
    · subst hr
      simp only [hexFields, List.append_nil]
      exact List.suffix_append _ _
    · exact (ih hr).trans (by rw [hexFields]; exact List.suffix_append _ _)

/-! ## Character and string case mapping: the claims -/

/-- C1: for every byte `c` (0..255), `CharToUpper c` is `c - 32` when `c ≥ 224`,
and otherwise the ASCII upper case of `c` (`c - 32` for `c` in a..z, `c` itself
for every other byte); `CharToUpper 0xE0 = 0xC0`, and every byte of 0xE0..0xFE
lands in 0xC0..0xDE. -/
theorem CharToUpper_spec (c : Nat) (hc : c < 256) :
    CharToUpper c = (if 224 ≤ c then c - 32 else if 97 ≤ c ∧ c ≤ 122 then c - 32 else c)
      ∧ CharToUpper 0xE0 = 0xC0
      ∧ (0xE0 ≤ c → c ≤ 0xFE → 0xC0 ≤ CharToUpper c ∧ CharToUpper c ≤ 0xDE) := by
  refine ⟨CharToUpper_eq c hc, by decide, ?_⟩
  intro h1 h2
  have h224 : 224 ≤ c := h1
  rw [CharToUpper_eq c hc, if_pos h224]
  omega

/-- Witness of C1 at the byte 0xE0. -/
theorem CharToUpper_spec_witness :
    (224 : Nat) < 256
      ∧ (CharToUpper 224
            = (if 224 ≤ 224 then 224 - 32 else if 97 ≤ 224 ∧ 224 ≤ 122 then 224 - 32 else 224)
          ∧ CharToUpper 0xE0 = 0xC0
          ∧ (0xE0 ≤ 224 → 224 ≤ 0xFE → 0xC0 ≤ CharToUpper 224 ∧ CharToUpper 224 ≤ 0xDE)) :=
  ⟨by decide, CharToUpper_spec 224 (by decide)⟩

/-- C2: for every byte `c` (0..255), `CharToLower c` is `c + 32` when
`192 ≤ c ≤ 223`, and otherwise the ASCII lower case of `c` (`c + 32` for `c` in
A..Z, `c` itself for every other byte); `CharToLower 0xC0 = 0xE0`. -/
theorem CharToLower_spec (c : Nat) (hc : c < 256) :
    CharToLower c
        = (if 192 ≤ c ∧ c ≤ 223 then c + 32 else if 65 ≤ c ∧ c ≤ 90 then c + 32 else c)
      ∧ CharToLower 0xC0 = 0xE0 :=
  ⟨CharToLower_eq c hc, by decide⟩

/-- Witness of C2 at the byte 0xC0. -/
theorem CharToLower_spec_witness :
    (192 : Nat) < 256
      ∧ (CharToLower 192
            = (if 192 ≤ 192 ∧ 192 ≤ 223 then 192 + 32
               else if 65 ≤ 192 ∧ 192 ≤ 90 then 192 + 32 else 192)
          ∧ CharToLower 0xC0 = 0xE0) :=
  ⟨by decide, CharToLower_spec 192 (by decide)⟩

/-- C3: for every byte string `s`, `ToUpperCase s` has the length of `s` and its
`i`-th byte is `CharToUpper` of the `i`-th byte of `s`; likewise `ToLowerCase s`
with `CharToLower`. -/
theorem ToUpperCase_ToLowerCase_pointwise (s : List Nat) (hs : ∀ b ∈ s, b < 256) :
    (ToUpperCase s).length = s.length
      ∧ (∀ i : Nat, (ToUpperCase s)[i]? = (s[i]?).map CharToUpper)
      ∧ (ToLowerCase s).length = s.length
      ∧ (∀ i : Nat, (ToLowerCase s)[i]? = (s[i]?).map CharToLower) := by
  rw [ToUpperCase_eq_map s hs, ToLowerCase_eq_map s hs]
  refine ⟨List.length_map _ _, ?_, List.length_map _ _, ?_⟩ <;> intro i <;> simp

/-- Witness of C3 at the four bytes 'a', 'Z', 0xE0, 0xC0. -/
theorem ToUpperCase_ToLowerCase_pointwise_witness :
    (∀ b ∈ [97, 90, 224, 192], b < 256)
      ∧ ((ToUpperCase [97, 90, 224, 192]).length = [97, 90, 224, 192].length
          ∧ (∀ i : Nat,
              (ToUpperCase [97, 90, 224, 192])[i]? = ([97, 90, 224, 192][i]?).map CharToUpper)
          ∧ (ToLowerCase [97, 90, 224, 192]).length = [97, 90, 224, 192].length
          ∧ (∀ i : Nat,
              (ToLowerCase [97, 90, 224, 192])[i]? = ([97, 90, 224, 192][i]?).map CharToLower)) :=
  ⟨by decide, ToUpperCase_ToLowerCase_pointwise [97, 90, 224, 192] (by decide)⟩

/-! ## ToHexString: the claims -/

/-- C4, the code at the inputs where it leaves the claim: the byte 0x0A is
written as the single digit `A` where two digits `0A` are claimed, and where
`char` is signed the byte 0xE0 is written as the eight digits `FFFFFFE0` where
`E0` is claimed; on `AB` the code gives the claimed `4142`. -/
theorem ToHexString_not_two_digits :
    ToHexString true [10] defaultSeparator = [65]
      ∧ ToHexString false [10] defaultSeparator = [65]
      ∧ ToHexString_asSpecified [10] defaultSeparator = [48, 65]
      ∧ ToHexString true [224] defaultSeparator = [70, 70, 70, 70, 70, 70, 69, 48]
      ∧ ToHexString_asSpecified [224] defaultSeparator = [69, 48]
      ∧ ToHexString true [65, 66] defaultSeparator = [52, 49, 52, 50]
      ∧ ToHexString false [65, 66] defaultSeparator = [52, 49, 52, 50] := by
  decide

/-- C5 as stated fails: on `AB` with the separator `-` the result `41-42-` has
six characters, not the `2 * 2 + (2 - 1) * 1 = 5` of the claim. -/
theorem separator_count_counterexample :
    ¬ ((ToHexString true [65, 66] [45]).length
          = 2 * [65, 66].length + ([65, 66].length - 1) * [45].length)
      ∧ ¬ ((ToHexString false [65, 66] [45]).length
          = 2 * [65, 66].length + ([65, 66].length - 1) * [45].length) := by
  decide

/-- C5 as amended: for every byte string `s` whose bytes are each written with
two digits (from 0x10 on, and below 0x80 where `char` is signed) and every
separator, the length of `ToHexString s sep` is `2 * len s + len s * len sep`:
one separator per byte, the last byte included. -/
theorem ToHexString_length (cs : Bool) (s sep : List Nat)
    (hb : ∀ b ∈ s, 16 ≤ b ∧ b < 256 ∧ (cs = true → b < 128)) :
    (ToHexString cs s sep).length = 2 * s.length + s.length * sep.length := by
  rw [ToHexString_eq]
  exact hexFields_length cs sep s hb

/-- Witness of the amended C5 at `AB` with the separator `-`. -/
theorem ToHexString_length_witness :
    (∀ b ∈ [65, 66], 16 ≤ b ∧ b < 256 ∧ (true = true → b < 128))
      ∧ (ToHexString true [65, 66] [45]).length = 2 * [65, 66].length + [65, 66].length * [45].length :=
  ⟨by decide, ToHexString_length true [65, 66] [45] (by decide)⟩

/-- C6: for every separator, `ToHexString` of the empty string is empty; for
every non-empty `s` the result ends with the separator; and `AB` with the
separator `-` gives `41-42-`. -/
theorem ToHexString_trailing_separator (cs : Bool) (s sep : List Nat) (hs : s ≠ []) :
    ToHexString cs [] sep = []
      ∧ sep <:+ ToHexString cs s sep
      ∧ ToHexString cs [65, 66] [45] = [52, 49, 45, 52, 50, 45] := by
  refine ⟨by simp [ToHexString_eq, hexFields], ?_, by cases cs <;> decide⟩
  rw [ToHexString_eq]
  exact hexFields_suffix cs sep s hs

/-- Witness of C6 at the string `AB` and the separator `, `. -/
theorem ToHexString_trailing_separator_witness :
    ([65, 66] : List Nat) ≠ []
      ∧ (ToHexString true [] [44, 32] = []
          ∧ [44, 32] <:+ ToHexString true [65, 66] [44, 32]
          ∧ ToHexString true [65, 66] [45] = [52, 49, 45, 52, 50, 45]) :=
  ⟨by decide, ToHexString_trailing_separator true [65, 66] [44, 32] (by decide)⟩

/-! ## ToString and FromString: the claims -/

/-- C7: for every `n` in the range of `int`, the bounds included,
`FromString< int >( ToString( n ) )` is `n`, whatever the local `x` held. -/
theorem FromString_ToString (x0 n : Int) (hlo : INT_MIN ≤ n) (hhi : n ≤ INT_MAX) :
    FromString x0 (ToString n defaultPrecision) = n := by
  have h := roundtrip_append_aux x0 n defaultPrecision [] hlo hhi (by simp)
  simpa using h

/-- Witness of C7 at `INT_MIN`. -/
theorem FromString_ToString_witness :
    INT_MIN ≤ (-2147483648 : Int) ∧ (-2147483648 : Int) ≤ INT_MAX
      ∧ FromString 7 (ToString (-2147483648) defaultPrecision) = -2147483648 :=
  ⟨by decide, by decide, FromString_ToString 7 (-2147483648) (by decide) (by decide)⟩

/-- C8, the code at the inputs where it leaves the claim: on the empty text and
on a text of blanks only the extraction is not attempted, and the function
returns whatever the uninitialised local `x` held, not 0; on `abc` it returns
0. -/
theorem FromString_blank_returns_uninitialised (x0 : Int) :
    FromString x0 [] = x0
      ∧ FromString x0 [32, 9, 10] = x0
      ∧ FromString x0 [97, 98, 99] = 0 := by
  refine ⟨rfl, rfl, rfl⟩

/-- C9: for every `n` in the range of `int` and every text `t` that does not
start with a decimal digit, `FromString< int >` of `ToString( n )` followed by
`t` is `n`. -/
theorem FromString_ignores_trailing (x0 n : Int) (t : List Nat)
    (hlo : INT_MIN ≤ n) (hhi : n ≤ INT_MAX)
    (ht : ∀ c, t.head? = some c → isdigit c = false) :
    FromString x0 (ToString n defaultPrecision ++ t) = n :=
  roundtrip_append_aux x0 n defaultPrecision t hlo hhi ht

/-- Witness of C9 at `-42` followed by ` 17`. -/
theorem FromString_ignores_trailing_witness :
    INT_MIN ≤ (-42 : Int) ∧ (-42 : Int) ≤ INT_MAX
      ∧ (∀ c, ([32, 49, 55] : List Nat).head? = some c → isdigit c = false)
      ∧ FromString 7 (ToString (-42) defaultPrecision ++ [32, 49, 55]) = -42 :=
  ⟨by decide, by decide, by intro c hc; simp at hc; subst hc; decide,
    FromString_ignores_trailing 7 (-42) [32, 49, 55] (by decide) (by decide)
      (by intro c hc; simp at hc; subst hc; decide)⟩

/-! ## Composition of the case mappings: supporting lemmas -/

theorem CharToUpper_CharToLower (c : Nat) (h : c < 256) :
    CharToUpper (CharToLower c) = CharToUpper c := by
  rw [CharToUpper_eq _ (CharToLower_lt c), CharToLower_eq c h, CharToUpper_eq c h]
  split_ifs <;> omega

theorem CharToLower_CharToUpper (c : Nat) (h : c < 256) :
    CharToLower (CharToUpper c) = CharToLower c := by
  rw [CharToLower_eq _ (CharToUpper_lt c), CharToUpper_eq c h, CharToLower_eq c h]
  split_ifs <;> omega

theorem CharToUpper_idem (c : Nat) (h : c < 256) :
    CharToUpper (CharToUpper c) = CharToUpper c := by
  rw [CharToUpper_eq _ (CharToUpper_lt c), CharToUpper_eq c h]
  split_ifs <;> omega

theorem CharToLower_idem (c : Nat) (h : c < 256) :
    CharToLower (CharToLower c) = CharToLower c := by
  rw [CharToLower_eq _ (CharToLower_lt c), CharToLower_eq c h]
  split_ifs <;> omega

theorem ToUpperCase_lt (s : List Nat) : ∀ b ∈ ToUpperCase s, b < 256 := by
  intro b hb
  simp only [ToUpperCase, transform_eq_map, List.mem_map] at hb
  obtain ⟨a, _, rfl⟩ := hb
  exact Nat.mod_lt _ (by decide)

theorem ToLowerCase_lt (s : List Nat) : ∀ b ∈ ToLowerCase s, b < 256 := by
  intro b hb
  simp only [ToLowerCase, transform_eq_map, List.mem_map] at hb
  obtain ⟨a, _, rfl⟩ := hb
  exact Nat.mod_lt _ (by decide)

theorem ToUpperCase_ToLowerCase_absorb (s : List Nat) (hs : ∀ b ∈ s, b < 256) :
    ToUpperCase (ToLowerCase s) = ToUpperCase s := by
  rw [ToUpperCase_eq_map _ (ToLowerCase_lt s), ToLowerCase_eq_map s hs, ToUpperCase_eq_map s hs,
    List.map_map]
  exact List.map_congr_left (fun b hb => CharToUpper_CharToLower b (hs b hb))

theorem ToLowerCase_ToUpperCase_absorb (s : List Nat) (hs : ∀ b ∈ s, b < 256) :
    ToLowerCase (ToUpperCase s) = ToLowerCase s := by
  rw [ToLowerCase_eq_map _ (ToUpperCase_lt s), ToUpperCase_eq_map s hs, ToLowerCase_eq_map s hs,
    List.map_map]
  exact List.map_congr_left (fun b hb => CharToLower_CharToUpper b (hs b hb))

theorem ToUpperCase_idem (s : List Nat) (hs : ∀ b ∈ s, b < 256) :
    ToUpperCase (ToUpperCase s) = ToUpperCase s := by
  rw [ToUpperCase_eq_map _ (ToUpperCase_lt s), ToUpperCase_eq_map s hs, List.map_map]
  exact List.map_congr_left (fun b hb => CharToUpper_idem b (hs b hb))

theorem ToLowerCase_idem (s : List Nat) (hs : ∀ b ∈ s, b < 256) :
    ToLowerCase (ToLowerCase s) = ToLowerCase s := by
  rw [ToLowerCase_eq_map _ (ToLowerCase_lt s), ToLowerCase_eq_map s hs, List.map_map]
  exact List.map_congr_left (fun b hb => CharToLower_idem b (hs b hb))

/-! ## The bitwise guard: supporting lemmas -/

theorem highBitSet_of_ge (c : Nat) (h : c < 256) (h128 : 128 ≤ c) : highBitSet c = true := by
  have hbit : c.testBit 7 = true := by
    rw [Nat.testBit_to_div_mod, show (2 : Nat) ^ 7 = 128 from rfl]
    have hq : c / 128 % 2 = 1 := by omega
    exact decide_eq_true hq
  have hand : (c &&& 128).testBit 7 = true := by
    rw [Nat.testBit_and, hbit]
    decide
  have hne : c &&& 128 ≠ 0 := by
    intro h0
    rw [h0] at hand
    simp at hand
  simp [highBitSet, hne]

theorem CharToUpper_bitwise_eq (c : Nat) (h : c < 256) :
    CharToUpper_bitwise c = CharToUpper c := by
  by_cases h1 : 224 ≤ c
  · have h0 : c ≠ 0 := by omega
    simp [CharToUpper_bitwise, CharToUpper, logicalAnd, highBitSet_of_ge c h (by omega), h0]
  · simp only [CharToUpper_bitwise, CharToUpper, ge_iff_le, h1, if_false, ite_self]

theorem CharToLower_bitwise_eq (c : Nat) (h : c < 256) :
    CharToLower_bitwise c = CharToLower c := by
  by_cases h1 : 192 ≤ c ∧ c ≤ 223
  · have h0 : c ≠ 0 := by omega
    simp [CharToLower_bitwise, CharToLower, logicalAnd, highBitSet_of_ge c h (by omega), h0]
  · simp only [CharToLower_bitwise, CharToLower, ge_iff_le, h1, if_false, ite_self]

/-! ## The decimal field: supporting lemmas -/

theorem natField_head (u : Bool) (v : Nat) (h : (natField 10 u v).head? = some 48) :
    natField 10 u v = [48] := by
  by_cases hv : v = 0
  · subst hv; rw [natField_eq 10 (by decide)]; rfl
  · exfalso
    rw [natField_eq 10 (by decide), if_neg hv] at h
    have hne : Nat.digits 10 v ≠ [] := Nat.digits_ne_nil_iff_ne_zero.mpr hv
    have hlast := Nat.getLast_digit_ne_zero 10 hv
    have hmem : (Nat.digits 10 v).getLast hne ∈ Nat.digits 10 v := List.getLast_mem hne
    have hlt : (Nat.digits 10 v).getLast hne < 10 := Nat.digits_lt_base (by decide) hmem
    obtain ⟨l, hl⟩ : ∃ l, (Nat.digits 10 v).reverse = (Nat.digits 10 v).getLast hne :: l := by
      refine ⟨(Nat.digits 10 v).dropLast.reverse, ?_⟩
      conv_lhs => rw [← List.dropLast_append_getLast hne]
      simp
    rw [hl] at h
    simp only [List.map_cons, List.head?_cons, Option.some.injEq, digitChar, hlt, if_true] at h
    omega

/-! ## Round trips, absorption and idempotence: the claims -/

/-- C11: for every byte string `s` whose bytes are all below 128, with
`u = ToUpperCase (ToLowerCase s)`: `u` is `ToUpperCase s`, and the round trip
applied to `u` gives `u` again. -/
theorem ascii_case_round_trip (s : List Nat) (hs : ∀ b ∈ s, b < 128) :
    ToUpperCase (ToLowerCase s) = ToUpperCase s
      ∧ ToUpperCase (ToLowerCase (ToUpperCase (ToLowerCase s)))
          = ToUpperCase (ToLowerCase s) := by
  have hs256 : ∀ b ∈ s, b < 256 := fun b hb => Nat.lt_trans (hs b hb) (by decide)
  have h1 := ToUpperCase_ToLowerCase_absorb s hs256
  refine ⟨h1, ?_⟩
  rw [h1, ToUpperCase_ToLowerCase_absorb _ (ToUpperCase_lt s), ToUpperCase_idem s hs256]

/-- Witness of C11 at the text `aZ 9~`. -/
theorem ascii_case_round_trip_witness :
    (∀ b ∈ [97, 90, 32, 57, 126], b < 128)
      ∧ (ToUpperCase (ToLowerCase [97, 90, 32, 57, 126]) = ToUpperCase [97, 90, 32, 57, 126]
          ∧ ToUpperCase (ToLowerCase (ToUpperCase (ToLowerCase [97, 90, 32, 57, 126])))
              = ToUpperCase (ToLowerCase [97, 90, 32, 57, 126])) :=
  ⟨by decide, ascii_case_round_trip [97, 90, 32, 57, 126] (by decide)⟩

/-- C12: for every byte `c` of 0xC0..0xDF, `CharToUpper (CharToLower c)` is `c`,
and for every byte `c` of 0xE0..0xFE, `CharToLower (CharToUpper c)` is `c`. -/
theorem accented_band_round_trip (c : Nat) :
    (0xC0 ≤ c → c ≤ 0xDF → CharToUpper (CharToLower c) = c)
      ∧ (0xE0 ≤ c → c ≤ 0xFE → CharToLower (CharToUpper c) = c) := by
  constructor
  · intro h1 h2
    have hlo : 192 ≤ c := h1
    have hhi : c ≤ 223 := h2
    have hc : c < 256 := by omega
    rw [CharToUpper_CharToLower c hc, CharToUpper_eq c hc]
    split_ifs <;> omega
  · intro h1 h2
    have hlo : 224 ≤ c := h1
    have hhi : c ≤ 254 := h2
    have hc : c < 256 := by omega
    rw [CharToLower_CharToUpper c hc, CharToLower_eq c hc]
    split_ifs <;> omega

/-- Witness of C12 at the two ends of the bands, 0xC0, 0xDF, 0xE0 and 0xFE. -/
theorem accented_band_round_trip_witness :
    CharToUpper (CharToLower 0xC0) = 0xC0 ∧ CharToUpper (CharToLower 0xDF) = 0xDF
      ∧ CharToLower (CharToUpper 0xE0) = 0xE0 ∧ CharToLower (CharToUpper 0xFE) = 0xFE :=
  ⟨(accented_band_round_trip 0xC0).1 (by decide) (by decide),
    (accented_band_round_trip 0xDF).1 (by decide) (by decide),
    (accented_band_round_trip 0xE0).2 (by decide) (by decide),
    (accented_band_round_trip 0xFE).2 (by decide) (by decide)⟩

/-- C13 as stated fails: there is no byte at which `CharToUpper` or
`CharToLower` as written differs from the variant with the bitwise test. -/
theorem bitwise_guard_counterexample :
    ¬ ∃ c : Nat, c < 256
        ∧ (CharToUpper c ≠ CharToUpper_bitwise c ∨ CharToLower c ≠ CharToLower_bitwise c) := by
  rintro ⟨c, hc, h | h⟩
  · exact h (CharToUpper_bitwise_eq c hc).symm
  · exact h (CharToLower_bitwise_eq c hc).symm

/-- C13 as amended: replacing the guard `c && 128` by the bitwise test
`( c & 128 ) != 0` changes nothing: for every byte `c`, `CharToUpper` and
`CharToLower` as written return what the variants with the bitwise test
return. -/
theorem bitwise_guard_same_result (c : Nat) (hc : c < 256) :
    CharToUpper c = CharToUpper_bitwise c ∧ CharToLower c = CharToLower_bitwise c :=
  ⟨(CharToUpper_bitwise_eq c hc).symm, (CharToLower_bitwise_eq c hc).symm⟩

/-- Witness of the amended C13 at the byte 'a', which is non-zero and has the
high bit clear, so the two guards differ there. -/
theorem bitwise_guard_same_result_witness :
    (97 : Nat) < 256 ∧ logicalAnd 97 128 = true ∧ highBitSet 97 = false
      ∧ (CharToUpper 97 = CharToUpper_bitwise 97 ∧ CharToLower 97 = CharToLower_bitwise 97) :=
  ⟨by decide, by decide, by decide, bitwise_guard_same_result 97 (by decide)⟩

/-- C14: for every byte string `s`, `ToUpperCase (ToLowerCase s)` is
`ToUpperCase s` and `ToLowerCase (ToUpperCase s)` is `ToLowerCase s`, over all
256 byte values. -/
theorem case_absorption (s : List Nat) (hs : ∀ b ∈ s, b < 256) :
    ToUpperCase (ToLowerCase s) = ToUpperCase s
      ∧ ToLowerCase (ToUpperCase s) = ToLowerCase s :=
  ⟨ToUpperCase_ToLowerCase_absorb s hs, ToLowerCase_ToUpperCase_absorb s hs⟩

/-- Witness of C14 at the bytes 'a', 'Z', 0xC0, 0xDF, 0xE0, 0xFF, 0. -/
theorem case_absorption_witness :
    (∀ b ∈ [97, 90, 192, 223, 224, 255, 0], b < 256)
      ∧ (ToUpperCase (ToLowerCase [97, 90, 192, 223, 224, 255, 0])
            = ToUpperCase [97, 90, 192, 223, 224, 255, 0]
          ∧ ToLowerCase (ToUpperCase [97, 90, 192, 223, 224, 255, 0])
            = ToLowerCase [97, 90, 192, 223, 224, 255, 0]) :=
  ⟨by decide, case_absorption [97, 90, 192, 223, 224, 255, 0] (by decide)⟩

/-- C15: for every byte string `s`, `ToUpperCase (ToUpperCase s)` is
`ToUpperCase s` and `ToLowerCase (ToLowerCase s)` is `ToLowerCase s`, over all
256 byte values. -/
theorem case_idempotence (s : List Nat) (hs : ∀ b ∈ s, b < 256) :
    ToUpperCase (ToUpperCase s) = ToUpperCase s
      ∧ ToLowerCase (ToLowerCase s) = ToLowerCase s :=
  ⟨ToUpperCase_idem s hs, ToLowerCase_idem s hs⟩

/-- Witness of C15 at the bytes 'a', 'Z', 0xC0, 0xDF, 0xE0, 0xFF, 0. -/
theorem case_idempotence_witness :
    (∀ b ∈ [97, 90, 192, 223, 224, 255, 0], b < 256)
      ∧ (ToUpperCase (ToUpperCase [97, 90, 192, 223, 224, 255, 0])
            = ToUpperCase [97, 90, 192, 223, 224, 255, 0]
          ∧ ToLowerCase (ToLowerCase [97, 90, 192, 223, 224, 255, 0])
            = ToLowerCase [97, 90, 192, 223, 224, 255, 0]) :=
  ⟨by decide, case_idempotence [97, 90, 192, 223, 224, 255, 0] (by decide)⟩

/-! ## Concatenation and precision: the claims -/

/-- C16: for all byte strings `a` and `b` and every separator,
`ToHexString (a ++ b) sep` is `ToHexString a sep` followed by
`ToHexString b sep`. -/
theorem ToHexString_append (cs : Bool) (a b sep : List Nat) :
    ToHexString cs (a ++ b) sep = ToHexString cs a sep ++ ToHexString cs b sep := by
  simp only [ToHexString_eq, hexFields_append]

/-- C17: for every integer `n` and all precisions `p` and `q`, `ToString n p`
is `ToString n q`, and the result is the plain decimal rendering of `n`: a
minus sign exactly when `n` is negative, then a non-empty run of decimal digits
with no leading zero whose value is the magnitude of `n`; so no decimal point
and no fractional digits. -/
theorem ToString_int_ignores_precision (n : Int) (p q : Nat) :
    ToString n p = ToString n q
      ∧ ∃ D : List Nat,
          ToString n p = (if n < 0 then 45 :: D else D)
            ∧ D ≠ []
            ∧ (∀ c ∈ D, isdigit c = true)
            ∧ (D.head? = some 48 → D = [48])
            ∧ digitsValue D = n.natAbs := by
  refine ⟨by rw [ToString_eq, ToString_eq], natField 10 false n.natAbs, ?_,
    natField_ne_nil 10 (by decide) false _, natField_isdigit false _, natField_head false _,
    digitsValue_natField false _⟩
  rw [ToString_eq]
  by_cases hn : n < 0
  · simp only [hn, if_true]
  · simp only [hn, if_false]
    have h : n.toNat = n.natAbs := by omega
    rw [h]

/-! ## The fixed-point field: supporting lemmas -/

end StrUtil
